import Mathlib

/-!
Verification of the batch-output aggregation engine and the streaming
confusion-matrix metric engine of the Keras repository
(`keras/engine/training_utils_v1.py` and `keras/metrics/metrics.py`).

The implementation modules themselves are not shipped in this source
snapshot; only their test suites are (`training_utils_v1_test.py`,
`metrics_test.py`).  Every definition below is therefore a shallow model
built from the description of the missing code in the design spec,
cross-checked against the concrete expectations of the shipped tests.
Arrays are modelled as Lean lists (a 2-D array is a list of rows), machine
floats as rationals, buffers as functions `Nat → Int`, and exceptions as
an explicit `Except` with a Python-error type.
-/

namespace KerasSpec

/-- Modelled from the spec: the Python exception types that the aggregator
core can raise (`ValueError` for timeouts / incompatible merges,
`TypeError` propagated from a corrupted pooled write). -/
inductive PyError where
  | typeError (msg : String)
  | valueError (msg : String)
deriving DecidableEq, Repr

/-! ## ConcatAggregator (`use_steps = True`) -/

/-- Modelled from the spec: `ConcatAggregator.create` resets the internal
sequence of stored batches to empty. -/
def concatCreate {α : Type} : List α := []

/-- Modelled from the spec: `ConcatAggregator.aggregate` appends the batch
element to the stored sequence (dense-array path; arrival order is kept). -/
def concatAggregate {α : Type} (stored : List α) (batch : α) : List α :=
  stored ++ [batch]

/-- Result of finalizing an aggregator: `direct` marks the zero-copy fast
path (the stored object itself is returned), `concatenated` marks a freshly
built concatenation.  The distinction models Python object identity
(`results is data`) in a pure setting. -/
inductive AggResult (α : Type) where
  | direct (a : α)
  | concatenated (a : α)
deriving DecidableEq, Repr

/-- The payload of an `AggResult`, forgetting whether it was copied. -/
def AggResult.val {α : Type} : AggResult α → α
  | .direct a => a
  | .concatenated a => a

/-- Modelled from the spec: `ConcatAggregator.finalize` — if exactly one
element was ever appended, return that element directly (no copy);
otherwise concatenate all stored elements along axis 0 in arrival order.
A batch of a 2-D array is a list of rows, so axis-0 concatenation is
`List.flatten`. -/
def concatFinalize {β : Type} (stored : List (List β)) : AggResult (List β) :=
  match stored with
  | [b] => .direct b
  | bs => .concatenated bs.flatten

theorem concatFinalize_val {β : Type} (stored : List (List β)) :
    (concatFinalize stored).val = stored.flatten := by
  match stored with
  | [] => rfl
  | [b] => simp [concatFinalize, AggResult.val]
  | a :: b :: rest => rfl

/-- Feeding a list of batches, in order, to a fresh `ConcatAggregator`:
`create` then one `aggregate` call per batch. -/
def concatRun {α : Type} (batches : List α) : List α :=
  batches.foldl concatAggregate concatCreate

theorem concatRun_eq {α : Type} (batches : List α) :
    concatRun batches = batches := by
  have h : ∀ (st : List α) (bs : List α), bs.foldl concatAggregate st = st ++ bs := by
    intro st bs
    induction bs generalizing st with
    | nil => simp
    | cons b rest ih => simp [concatAggregate, ih]
  simpa [concatRun, concatCreate] using h [] batches

/-- C1: for every array `xs` and every ordered partition of it into `N ≥ 1`
contiguous row-chunks, feeding the chunks in order to a `ConcatAggregator`
and finalizing returns the original unsplit array; concatenation order is
call arrival order. -/
theorem concat_partition_roundtrip {β : Type} (xs : List β)
    (chunks : List (List β)) (_hN : 1 ≤ chunks.length)
    (hpart : chunks.flatten = xs) :
    (concatFinalize (concatRun chunks)).val = xs ∧
      concatRun chunks = chunks := by
  refine ⟨?_, concatRun_eq chunks⟩
  rw [concatRun_eq, concatFinalize_val, hpart]

theorem concat_partition_roundtrip_witness :
    1 ≤ ([[(3 : Int), 1], [2], [0, 5]] : List (List Int)).length ∧
      (concatFinalize (concatRun [[(3 : Int), 1], [2], [0, 5]])).val
        = [3, 1, 2, 0, 5] :=
  ⟨by decide,
    (concat_partition_roundtrip [3, 1, 2, 0, 5] [[3, 1], [2], [0, 5]]
      (by decide) (by decide)).1⟩

/-- C9: a `ConcatAggregator` to which exactly one batch was ever aggregated
finalizes to that very batch through the zero-copy fast path (`direct`,
i.e. identity, not a rebuilt concatenation). -/
theorem concat_single_batch_identity {β : Type} (data : List β) :
    concatFinalize (concatAggregate concatCreate data) = .direct data := by
  rfl

/-! ## SliceAggregator (`use_steps = False`, known `num_samples`) -/

/-- Modelled from the spec: one slice-assignment `buffer[start:start+len(batch)]
= batch`, on a buffer represented as a total function `Nat → Int` (positions
outside the allocated `[0, num_samples)` window are never read). -/
def writeSlice (f : Nat → Int) (s : Nat) (batch : List Int) : Nat → Int :=
  fun p => if s ≤ p ∧ p < s + batch.length then batch.getD (p - s) 0 else f p

/-- Modelled from the spec: a handle recorded for a slice-assignment
submitted to the shared copy pool.  `finishTime` is the absolute time at
which the pooled task completes, and `taskErr` is the exception the task
raised (the worker records it instead of letting it escape the pool). -/
structure CopyHandle where
  start : Nat
  batch : List Int
  finishTime : Nat
  taskErr : Option PyError
deriving DecidableEq, Repr

/-- Modelled from the spec: element size in bytes of the (int64) payloads
used when comparing a batch against `_BINARY_SIZE_THRESHOLD`. -/
def elemBytes : Nat := 8

/-- Modelled from the spec: the approximate byte size of a batch, compared
against `SliceAggregator._BINARY_SIZE_THRESHOLD`. -/
def byteSize (batch : List Int) : Nat := elemBytes * batch.length

/-- Modelled from the spec: the mutable state of one `SliceAggregator`.
`threshold` is `_BINARY_SIZE_THRESHOLD`; `allocated` records whether the
destination buffer was ever materialized; `direct` holds the result object
installed by the single-batch zero-copy fast path; `handles` are the
pending pooled writes in submission order. -/
structure SliceAgg where
  num_samples : Nat
  threshold : Nat
  buffer : Nat → Int
  allocated : Bool
  handles : List CopyHandle
  direct : Option (List Int)

/-- Modelled from the spec: `SliceAggregator.create` defers buffer
allocation and records the target total sample count. -/
def SliceAgg.create (n τ : Nat) : SliceAgg :=
  ⟨n, τ, fun _ => 0, false, [], none⟩

/-- Modelled from the spec (and `test_slice_single_batch`):
`SliceAggregator.aggregate`.  A batch covering the whole `[0, num_samples)`
range takes the zero-copy fast path and becomes the result object directly,
with no buffer write.  Otherwise the buffer is (lazily) allocated and the
slice-assignment either goes to the shared pool — when the byte size of
the batch exceeds `_BINARY_SIZE_THRESHOLD` — or is performed synchronously.
`env` supplies, per submission index, the completion time and the exception
(if any) of the pooled task; the write of a worker lands in the buffer by
`finalize` time and is modelled as applied there. -/
def SliceAgg.aggregate (env : Nat → Nat × Option PyError) (st : SliceAgg)
    (batch : List Int) (bstart bend : Nat) : SliceAgg :=
  if bend - bstart = st.num_samples then
    { st with direct := some batch }
  else if st.threshold < byteSize batch then
    { st with allocated := true,
              handles := st.handles ++
                [⟨bstart, batch, (env st.handles.length).1, (env st.handles.length).2⟩] }
  else
    { st with allocated := true, buffer := writeSlice st.buffer bstart batch }

/-- The buffer after all pending pooled writes have landed. -/
def applyHandles (hs : List CopyHandle) (f : Nat → Int) : Nat → Int :=
  hs.foldl (fun g h => writeSlice g h.start h.batch) f

/-- Outcome of finalizing a `SliceAgg`: either the fast-path result object
itself (`direct`) or the filled destination buffer (`buffered`). -/
inductive SliceResults where
  | direct (b : List Int)
  | buffered (b : List Int)
deriving DecidableEq, Repr

/-- The payload of a `SliceResults`. -/
def SliceResults.toList : SliceResults → List Int
  | .direct b => b
  | .buffered b => b

/-- Modelled from the spec: `SliceAggregator.finalize`.  Wait on every
pending handle up to the `_MAX_COPY_SECONDS` deadline; a handle still
unfinished at the deadline raises `ValueError("Timed out waiting for copy
to complete.")`.  Then, if any worker recorded an exception, re-raise the
first one with its original type.  Otherwise the results are the fast-path
object if it was installed, else the buffer with all writes landed. -/
def SliceAgg.finalize (deadline : Nat) (st : SliceAgg) :
    Except PyError SliceResults :=
  if st.handles.all (fun h => h.finishTime ≤ deadline) then
    match st.handles.filterMap (fun h => h.taskErr) with
    | [] =>
        .ok (match st.direct with
             | some d => .direct d
             | none =>
                .buffered ((List.range st.num_samples).map
                  (applyHandles st.handles st.buffer)))
    | e :: _ => .error e
  else .error (.valueError "Timed out waiting for copy to complete.")

/-- Modelled from the spec: the evaluation loop of
`AggregationTest._run_without_steps` — feed contiguous chunks with
cumulatively computed `(batch_start, batch_end)` into a `SliceAggregator`,
starting at offset `s`. -/
def feedChunks (env : Nat → Nat × Option PyError) (st : SliceAgg) (s : Nat) :
    List (List Int) → SliceAgg
  | [] => st
  | c :: cs => feedChunks env (st.aggregate env c s (s + c.length)) (s + c.length) cs

/-- The environment in which every pooled task succeeds immediately. -/
def envOk : Nat → Nat × Option PyError := fun _ => (0, none)

/-- Modelled from the spec: the forced-synchronous variant of `aggregate`,
in which every slice-assignment is performed synchronously regardless of
byte size (the fast path is unchanged). -/
def SliceAgg.aggregateSync (st : SliceAgg) (batch : List Int)
    (bstart bend : Nat) : SliceAgg :=
  if bend - bstart = st.num_samples then
    { st with direct := some batch }
  else
    { st with allocated := true, buffer := writeSlice st.buffer bstart batch }

/-- Feeding contiguous chunks with every write forced synchronous. -/
def feedChunksSync (st : SliceAgg) (s : Nat) : List (List Int) → SliceAgg
  | [] => st
  | c :: cs => feedChunksSync (st.aggregateSync c s (s + c.length)) (s + c.length) cs

/-! ### Disjoint slice-assignments commute -/

/-- A slice-assignment as data: target offset and payload. -/
abbrev SliceWrite := Nat × List Int

/-- Two slice-assignments target disjoint buffer regions. -/
def WDisj (w w' : SliceWrite) : Prop :=
  w.1 + w.2.length ≤ w'.1 ∨ w'.1 + w'.2.length ≤ w.1

/-- Apply a list of slice-assignments to a buffer, left to right. -/
def applyW (ws : List SliceWrite) (f : Nat → Int) : Nat → Int :=
  ws.foldl (fun g w => writeSlice g w.1 w.2) f

theorem applyW_nil (f : Nat → Int) : applyW [] f = f := rfl

theorem applyW_cons (w : SliceWrite) (ws : List SliceWrite) (f : Nat → Int) :
    applyW (w :: ws) f = applyW ws (writeSlice f w.1 w.2) := rfl

theorem applyW_append (l l' : List SliceWrite) (f : Nat → Int) :
    applyW (l ++ l') f = applyW l' (applyW l f) := by
  simp [applyW, List.foldl_append]

theorem writeSlice_comm (f : Nat → Int) (w w' : SliceWrite) (hd : WDisj w w') :
    writeSlice (writeSlice f w.1 w.2) w'.1 w'.2
      = writeSlice (writeSlice f w'.1 w'.2) w.1 w.2 := by
  funext p
  rcases hd with hd | hd <;>
    simp only [writeSlice] <;>
    split <;> split <;> first | rfl | omega

theorem applyW_insert (w : SliceWrite) (l l' : List SliceWrite) (f : Nat → Int)
    (hd : ∀ w' ∈ l, WDisj w w') :
    applyW (l ++ l') (writeSlice f w.1 w.2) = applyW (l ++ w :: l') f := by
  induction l generalizing f with
  | nil => rfl
  | cons a l ih =>
      have ha : WDisj w a := hd a (by simp)
      have hrest : ∀ w' ∈ l, WDisj w w' := fun w' hw' => hd w' (by simp [hw'])
      calc applyW ((a :: l) ++ l') (writeSlice f w.1 w.2)
          = applyW (l ++ l') (writeSlice (writeSlice f w.1 w.2) a.1 a.2) := rfl
        _ = applyW (l ++ l') (writeSlice (writeSlice f a.1 a.2) w.1 w.2) := by
              rw [writeSlice_comm _ _ _ ha]
        _ = applyW (l ++ w :: l') (writeSlice f a.1 a.2) := ih _ hrest
        _ = applyW ((a :: l) ++ w :: l') f := rfl

/-- Moving every pooled (filtered-out) write to the back of the application
order does not change the final buffer, provided all writes are pairwise
region-disjoint. -/
theorem applyW_filter_perm (p : SliceWrite → Bool) (l : List SliceWrite)
    (f : Nat → Int) (hp : l.Pairwise WDisj) :
    applyW (l.filter p ++ l.filter (fun w => !(p w))) f = applyW l f := by
  induction l generalizing f with
  | nil => rfl
  | cons a l ih =>
      have hpl : l.Pairwise WDisj := (List.pairwise_cons.mp hp).2
      have hda : ∀ w' ∈ l, WDisj a w' := (List.pairwise_cons.mp hp).1
      cases hpa : p a with
      | true =>
          have hfil : List.filter p (a :: l) = a :: List.filter p l := by
            simp [hpa]
          have hfil' : List.filter (fun w => !(p w)) (a :: l)
              = List.filter (fun w => !(p w)) l := by simp [hpa]
          rw [hfil, hfil', List.cons_append, applyW_cons, ih _ hpl]
          rfl
      | false =>
          have hfil : List.filter p (a :: l) = List.filter p l := by simp [hpa]
          have hfil' : List.filter (fun w => !(p w)) (a :: l)
              = a :: List.filter (fun w => !(p w)) l := by simp [hpa]
          have hd : ∀ w' ∈ l.filter p, WDisj a w' :=
            fun w' hw' => hda w' (List.mem_of_mem_filter hw')
          rw [hfil, hfil', ← applyW_insert a _ _ f hd, ih _ hpl]
          rfl

/-! ### The writes generated by a chunked run -/

/-- The slice-assignments of a run over contiguous chunks with cumulative
offsets starting at `s`. -/
def writesOf (s : Nat) : List (List Int) → List SliceWrite
  | [] => []
  | c :: cs => (s, c) :: writesOf (s + c.length) cs

theorem writesOf_start_le (s : Nat) (cs : List (List Int)) :
    ∀ w ∈ writesOf s cs, s ≤ w.1 := by
  induction cs generalizing s with
  | nil => intro w hw; cases hw
  | cons c cs ih =>
      intro w hw
      rcases List.mem_cons.mp hw with hw | hw
      · subst hw; exact Nat.le_refl _
      · exact le_trans (Nat.le_add_right _ _) (ih _ _ hw)

theorem writesOf_pairwise (s : Nat) (cs : List (List Int)) :
    (writesOf s cs).Pairwise WDisj := by
  induction cs generalizing s with
  | nil => exact List.Pairwise.nil
  | cons c cs ih =>
      refine List.pairwise_cons.mpr ⟨?_, ih _⟩
      intro w hw
      exact Or.inl (writesOf_start_le _ _ w hw)

/-- A batch is "big": its byte size exceeds `_BINARY_SIZE_THRESHOLD`. -/
def bigW (τ : Nat) (w : SliceWrite) : Bool := decide (τ < byteSize w.2)

/-- The writes of a chunked run that escape the single-batch fast path
(those whose row count differs from `num_samples`). -/
def effWrites (m s : Nat) (cs : List (List Int)) : List SliceWrite :=
  (writesOf s cs).filter (fun w => decide (w.2.length ≠ m))

/-- The fast-path result object after feeding a list of chunks: the last
chunk covering the whole sample range, if any. -/
def directOf (m : Nat) (d : Option (List Int)) (cs : List (List Int)) :
    Option (List Int) :=
  cs.foldl (fun d c => if c.length = m then some c else d) d

/-- Package a slice-assignment as the handle recorded for an immediately
successful pooled task. -/
def toHandle (w : SliceWrite) : CopyHandle := ⟨w.1, w.2, 0, none⟩

theorem feedChunks_char (st : SliceAgg) (s : Nat) (cs : List (List Int)) :
    (feedChunks envOk st s cs).num_samples = st.num_samples ∧
    (feedChunks envOk st s cs).threshold = st.threshold ∧
    (feedChunks envOk st s cs).direct = directOf st.num_samples st.direct cs ∧
    (feedChunks envOk st s cs).handles = st.handles ++
      ((effWrites st.num_samples s cs).filter (bigW st.threshold)).map toHandle ∧
    (feedChunks envOk st s cs).buffer =
      applyW ((effWrites st.num_samples s cs).filter
        (fun w => !(bigW st.threshold w))) st.buffer := by
  induction cs generalizing st s with
  | nil => simp [feedChunks, directOf, effWrites, writesOf, applyW]
  | cons c cs ih =>
      have hsub : s + c.length - s = c.length := Nat.add_sub_cancel_left _ _
      by_cases hc : c.length = st.num_samples
      · have hagg : st.aggregate envOk c s (s + c.length)
            = { st with direct := some c } := by
          simp [SliceAgg.aggregate, hsub, hc]
        have := ih ({ st with direct := some c }) (s + c.length)
        simp only [feedChunks, hagg]
        refine ⟨this.1, this.2.1, ?_, ?_, ?_⟩
        · rw [this.2.2.1]
          simp [directOf, hc]
        · rw [this.2.2.2.1]
          simp [effWrites, writesOf, hc]
        · rw [this.2.2.2.2]
          simp [effWrites, writesOf, hc]
      · by_cases hbig : st.threshold < byteSize c
        · have hagg : st.aggregate envOk c s (s + c.length)
              = { st with allocated := true,
                          handles := st.handles ++ [toHandle (s, c)] } := by
            simp [SliceAgg.aggregate, hsub, hc, hbig, envOk, toHandle]
          have := ih ({ st with allocated := true,
                                handles := st.handles ++ [toHandle (s, c)] })
            (s + c.length)
          simp only [feedChunks, hagg]
          refine ⟨this.1, this.2.1, ?_, ?_, ?_⟩
          · rw [this.2.2.1]
            simp [directOf, hc]
          · rw [this.2.2.2.1]
            simp [effWrites, writesOf, hc, bigW, hbig, toHandle]
          · rw [this.2.2.2.2]
            simp [effWrites, writesOf, hc, bigW, hbig]
        · have hagg : st.aggregate envOk c s (s + c.length)
              = { st with allocated := true,
                          buffer := writeSlice st.buffer s c } := by
            simp [SliceAgg.aggregate, hsub, hc, hbig]
          have := ih ({ st with allocated := true,
                                buffer := writeSlice st.buffer s c })
            (s + c.length)
          simp only [feedChunks, hagg]
          refine ⟨this.1, this.2.1, ?_, ?_, ?_⟩
          · rw [this.2.2.1]
            simp [directOf, hc]
          · rw [this.2.2.2.1]
            simp [effWrites, writesOf, hc, bigW, hbig]
          · rw [this.2.2.2.2]
            simp [effWrites, writesOf, hc, bigW, hbig, applyW_cons]

theorem feedChunksSync_char (st : SliceAgg) (s : Nat) (cs : List (List Int)) :
    (feedChunksSync st s cs).num_samples = st.num_samples ∧
    (feedChunksSync st s cs).direct = directOf st.num_samples st.direct cs ∧
    (feedChunksSync st s cs).handles = st.handles ∧
    (feedChunksSync st s cs).buffer =
      applyW (effWrites st.num_samples s cs) st.buffer := by
  induction cs generalizing st s with
  | nil => simp [feedChunksSync, directOf, effWrites, writesOf, applyW]
  | cons c cs ih =>
      have hsub : s + c.length - s = c.length := Nat.add_sub_cancel_left _ _
      by_cases hc : c.length = st.num_samples
      · have hagg : st.aggregateSync c s (s + c.length)
            = { st with direct := some c } := by
          simp [SliceAgg.aggregateSync, hsub, hc]
        have := ih ({ st with direct := some c }) (s + c.length)
        simp only [feedChunksSync, hagg]
        refine ⟨this.1, ?_, this.2.2.1, ?_⟩
        · rw [this.2.1]
          simp [directOf, hc]
        · rw [this.2.2.2]
          simp [effWrites, writesOf, hc]
      · have hagg : st.aggregateSync c s (s + c.length)
            = { st with allocated := true,
                        buffer := writeSlice st.buffer s c } := by
          simp [SliceAgg.aggregateSync, hsub, hc]
        have := ih ({ st with allocated := true,
                              buffer := writeSlice st.buffer s c })
          (s + c.length)
        simp only [feedChunksSync, hagg]
        refine ⟨this.1, ?_, this.2.2.1, ?_⟩
        · rw [this.2.1]
          simp [directOf, hc]
        · rw [this.2.2.2]
          simp [effWrites, writesOf, hc, applyW_cons]

theorem applyHandles_map_toHandle (ws : List SliceWrite) (f : Nat → Int) :
    applyHandles (ws.map toHandle) f = applyW ws f := by
  simp [applyHandles, applyW, List.foldl_map, toHandle]

theorem effWrites_pairwise (m s : Nat) (cs : List (List Int)) :
    (effWrites m s cs).Pairwise WDisj :=
  (writesOf_pairwise s cs).sublist (List.filter_sublist _)

/-- C2: for a `SliceAggregator` fed the same contiguous chunks with
consistent `(batch_start, batch_end)`, the finalized results when
over-threshold batches are dispatched to the pool equal the results when
every write is forced synchronous, and only batches whose byte size
exceeds `_BINARY_SIZE_THRESHOLD` are submitted to the pool. -/
theorem slice_async_sync_equiv (τ m deadline : Nat)
    (chunks : List (List Int)) :
    (feedChunks envOk (SliceAgg.create m τ) 0 chunks).finalize deadline
      = (feedChunksSync (SliceAgg.create m τ) 0 chunks).finalize deadline ∧
    ∀ h ∈ (feedChunks envOk (SliceAgg.create m τ) 0 chunks).handles,
      τ < byteSize h.batch := by
  obtain ⟨hn, ht, hdir, hhs, hbuf⟩ :=
    feedChunks_char (SliceAgg.create m τ) 0 chunks
  obtain ⟨hn', hdir', hhs', hbuf'⟩ :=
    feedChunksSync_char (SliceAgg.create m τ) 0 chunks
  have Hn : (feedChunks envOk (SliceAgg.create m τ) 0 chunks).num_samples = m := hn
  have Hdir : (feedChunks envOk (SliceAgg.create m τ) 0 chunks).direct
      = directOf m none chunks := hdir
  have Hhs : (feedChunks envOk (SliceAgg.create m τ) 0 chunks).handles
      = ((effWrites m 0 chunks).filter (bigW τ)).map toHandle := hhs
  have Hbuf : (feedChunks envOk (SliceAgg.create m τ) 0 chunks).buffer
      = applyW ((effWrites m 0 chunks).filter (fun w => !(bigW τ w)))
          (fun _ => 0) := hbuf
  have Hn' : (feedChunksSync (SliceAgg.create m τ) 0 chunks).num_samples = m := hn'
  have Hdir' : (feedChunksSync (SliceAgg.create m τ) 0 chunks).direct
      = directOf m none chunks := hdir'
  have Hhs' : (feedChunksSync (SliceAgg.create m τ) 0 chunks).handles = [] := hhs'
  have Hbuf' : (feedChunksSync (SliceAgg.create m τ) 0 chunks).buffer
      = applyW (effWrites m 0 chunks) (fun _ => 0) := hbuf'
  constructor
  · -- finalize equality
    have hallA : (((effWrites m 0 chunks).filter (bigW τ)).map toHandle).all
        (fun h => h.finishTime ≤ deadline) = true := by
      rw [List.all_eq_true]
      rintro h hmem
      obtain ⟨w, hw, rfl⟩ := List.mem_map.mp hmem
      simp [toHandle]
    have herrA : (((effWrites m 0 chunks).filter (bigW τ)).map toHandle).filterMap
        (fun h => h.taskErr) = [] := by
      simp [toHandle]
    have hbufsEq : applyHandles
          (((effWrites m 0 chunks).filter (bigW τ)).map toHandle)
          (applyW ((effWrites m 0 chunks).filter (fun w => !(bigW τ w)))
            (fun _ => 0))
        = applyW (effWrites m 0 chunks) (fun _ => 0) := by
      rw [applyHandles_map_toHandle, ← applyW_append]
      have hperm := applyW_filter_perm (fun w => !(bigW τ w)) (effWrites m 0 chunks)
        (fun _ => 0) (effWrites_pairwise m 0 chunks)
      have hcongr : (effWrites m 0 chunks).filter (bigW τ)
          = (effWrites m 0 chunks).filter (fun w => !(!(bigW τ w))) := by
        simp
      rw [hcongr]
      exact hperm
    simp only [SliceAgg.finalize, Hhs, Hhs', Hdir, Hdir', Hn, Hn', Hbuf, Hbuf',
      hallA, herrA, List.all_nil, List.filterMap_nil, if_true, hbufsEq]
    cases hd : directOf m none chunks with
    | some d => rfl
    | none => rfl
  · -- only over-threshold batches are pooled
    intro h hmem
    rw [Hhs] at hmem
    obtain ⟨w, hw, hwh⟩ := List.mem_map.mp hmem
    have hbig : bigW τ w = true := (List.mem_filter.mp hw).2
    have hlt : τ < byteSize w.2 := by simpa [bigW] using hbig
    rw [← hwh]
    simpa [toHandle] using hlt

/-- C10: `SliceAggregator` single-batch zero-copy fast path — one
`aggregate` call covering the whole `[0, num_samples)` range makes
`finalize` return the very input object (`direct`), with no destination
buffer ever allocated. -/
theorem slice_single_batch_identity (τ deadline : Nat) (data : List Int)
    (env : Nat → Nat × Option PyError) :
    ((SliceAgg.create data.length τ).aggregate env data 0 data.length).finalize
        deadline = .ok (.direct data) ∧
    ((SliceAgg.create data.length τ).aggregate env data 0 data.length).allocated
        = false := by
  have hagg : (SliceAgg.create data.length τ).aggregate env data 0 data.length
      = { SliceAgg.create data.length τ with direct := some data } := by
    simp [SliceAgg.aggregate, SliceAgg.create]
  rw [hagg]
  exact ⟨rfl, rfl⟩

/-- C6: if an asynchronous slice write is still unfinished when the
`_MAX_COPY_SECONDS` deadline expires, `SliceAggregator.finalize` raises
`ValueError` whose message contains "Timed out waiting for copy", and in
particular never returns a (partially written) buffer. -/
theorem slice_finalize_timeout (deadline : Nat) (st : SliceAgg)
    (h : CopyHandle) (hmem : h ∈ st.handles) (hlate : deadline < h.finishTime) :
    st.finalize deadline
        = .error (.valueError "Timed out waiting for copy to complete.") ∧
    (∃ pre post, "Timed out waiting for copy to complete."
        = pre ++ "Timed out waiting for copy" ++ post) ∧
    ∀ r, st.finalize deadline ≠ .ok r := by
  have hall : st.handles.all (fun h => h.finishTime ≤ deadline) = false := by
    rw [List.all_eq_false]
    exact ⟨h, hmem, by simpa using Nat.not_le.mpr hlate⟩
  have hfin : st.finalize deadline
      = .error (.valueError "Timed out waiting for copy to complete.") := by
    simp only [SliceAgg.finalize, hall]
    rfl
  refine ⟨hfin, ⟨"", " to complete.", rfl⟩, ?_⟩
  intro r hr
  rw [hfin] at hr
  exact Except.noConfusion hr

theorem slice_finalize_timeout_witness :
    (⟨3, [5], 9, none⟩ : CopyHandle) ∈
        ({ num_samples := 4, threshold := 0, buffer := fun _ => 0,
           allocated := true, handles := [⟨3, [5], 9, none⟩],
           direct := none } : SliceAgg).handles ∧
    (2 : Nat) < (9 : Nat) ∧
    ({ num_samples := 4, threshold := 0, buffer := fun _ => 0,
       allocated := true, handles := [⟨3, [5], 9, none⟩],
       direct := none } : SliceAgg).finalize 2
      = .error (.valueError "Timed out waiting for copy to complete.") :=
  ⟨by simp, by decide,
    (slice_finalize_timeout 2 _ ⟨3, [5], 9, none⟩ (by simp) (by decide)).1⟩

/-- C5: an exception raised inside a pooled write task propagates out of
`finalize` with its original type intact — if every worker-recorded error
is a `TypeError` and at least one task errored (and no handle timed out),
`finalize` raises a `TypeError`, never a different type and never silent
success. -/
theorem slice_finalize_reraise_typeError (deadline : Nat) (st : SliceAgg)
    (hok : st.handles.all (fun h => h.finishTime ≤ deadline) = true)
    (herr : ∃ h ∈ st.handles, h.taskErr ≠ none)
    (hty : ∀ h ∈ st.handles, ∀ e, h.taskErr = some e → ∃ m, e = .typeError m) :
    (∃ m, st.finalize deadline = .error (.typeError m)) ∧
    ∀ r, st.finalize deadline ≠ .ok r := by
  obtain ⟨h0, hmem0, herr0⟩ := herr
  obtain ⟨e0, he0⟩ := Option.ne_none_iff_exists'.mp herr0
  have hne : st.handles.filterMap (fun h => h.taskErr) ≠ [] := by
    intro hnil
    have := List.filterMap_eq_nil_iff.mp hnil h0 hmem0
    rw [he0] at this
    exact Option.noConfusion this
  obtain ⟨e, rest, hcons⟩ := List.exists_cons_of_ne_nil hne
  have hemem : e ∈ st.handles.filterMap (fun h => h.taskErr) := by
    rw [hcons]; exact List.mem_cons_self _ _
  obtain ⟨he, hhe, hee⟩ := List.mem_filterMap.mp hemem
  obtain ⟨msg, hmsg⟩ := hty he hhe e hee
  have hfin : st.finalize deadline = .error (.typeError msg) := by
    simp only [SliceAgg.finalize, hok, if_true, hcons]
    rw [← hmsg]
  refine ⟨⟨msg, hfin⟩, ?_⟩
  intro r hr
  rw [hfin] at hr
  exact Except.noConfusion hr

theorem slice_finalize_reraise_typeError_witness :
    (∃ m, ({ num_samples := 4, threshold := 0, buffer := fun _ => 0,
             allocated := true,
             handles := [⟨0, [7], 0, some (.typeError
               "unsupported operand type: NoneType")⟩],
             direct := none } : SliceAgg).finalize 5
        = .error (.typeError m)) :=
  (slice_finalize_reraise_typeError 5 _ (by decide)
    ⟨⟨0, [7], 0, some (.typeError "unsupported operand type: NoneType")⟩,
      by simp, by simp⟩
    (by
      rintro h hmem e he
      simp only [List.mem_singleton] at hmem
      subst hmem
      simp only [Option.some.injEq] at he
      exact ⟨"unsupported operand type: NoneType", he.symm⟩)).1

/-! ## Confusion-matrix streaming metrics: IoU / MeanIoU -/

/-- The accumulated `num_classes × num_classes` confusion matrix
(`total_cm`), indexed `[true_class][predicted_class]`, entries in the
floating dtype of the metric (modelled as rationals). -/
def ConfusionMatrix (n : Nat) := Fin n → Fin n → ℚ

/-- Modelled from the spec: the zero-safe division rule
(`tf.math.divide_no_nan`) — a division by zero yields exactly `0`. -/
def divideNoNan (x y : ℚ) : ℚ := if y = 0 then 0 else x / y

/-- `sum_over_row` of class `c`: the confusion matrix reduced along axis 0
(total predictions of class `c`). -/
def sumOverRow {n : Nat} (cm : ConfusionMatrix n) (c : Fin n) : ℚ :=
  ∑ i, cm i c

/-- `sum_over_col` of class `c`: the confusion matrix reduced along axis 1
(total true instances of class `c`). -/
def sumOverCol {n : Nat} (cm : ConfusionMatrix n) (c : Fin n) : ℚ :=
  ∑ j, cm c j

/-- `true_positives` of class `c`: the diagonal entry. -/
def truePositives {n : Nat} (cm : ConfusionMatrix n) (c : Fin n) : ℚ :=
  cm c c

/-- The IoU denominator of class `c`:
`sum_over_row + sum_over_col - true_positives`. -/
def iouDenominator {n : Nat} (cm : ConfusionMatrix n) (c : Fin n) : ℚ :=
  sumOverRow cm c + sumOverCol cm c - truePositives cm c

/-- Modelled from the spec: the zero-safe per-class IoU
`true_positives[c] / (row_sum[c] + col_sum[c] - true_positives[c])`. -/
def perClassIoU {n : Nat} (cm : ConfusionMatrix n) (c : Fin n) : ℚ :=
  divideNoNan (truePositives cm c) (iouDenominator cm c)

/-- `num_valid_entries`: the number of classes whose IoU denominator is
nonzero (classes that appear in labels or predictions). -/
def numValidEntries {n : Nat} (cm : ConfusionMatrix n) : ℚ :=
  ((Finset.univ.filter (fun c => iouDenominator cm c ≠ 0)).card : ℚ)

/-- Modelled from the spec and `MeanIoUTest.test_zero_and_non_zero_entries`:
`MeanIoU.result()` (the `IoU.result` with all classes targeted) — the sum of
the zero-safe per-class IoUs, zero-safely divided by the number of valid
classes. -/
def meanIoUResult {n : Nat} (cm : ConfusionMatrix n) : ℚ :=
  divideNoNan (∑ c, perClassIoU cm c) (numValidEntries cm)

/-- Modelled from the spec: the freshly created / reset state of a
`MeanIoU` metric — all confusion-matrix counters zero (no `update_state`
call has happened). -/
def meanIoUInit (n : Nat) : ConfusionMatrix n := fun _ _ => 0

/-- The reading of `MeanIoU.result()` taken by the claim: the per-class zero-safe
IoUs averaged with the configured number of classes as the divisor. -/
def meanIoUResultClaimed {n : Nat} (cm : ConfusionMatrix n) : ℚ :=
  (∑ c, perClassIoU cm c) / (n : ℚ)

/-- The confusion matrix `[[0, 0], [0, 1]]` accumulated by
`MeanIoUTest.test_zero_and_non_zero_entries` (`y_true = [1]`,
`y_pred = [1]`). -/
def cmZeroAndOne : ConfusionMatrix 2 :=
  fun i j => ![![0, 0], ![0, 1]] i j

theorem cmZeroAndOne_denom_zero : iouDenominator cmZeroAndOne 0 = 0 := by
  simp [iouDenominator, sumOverRow, sumOverCol, truePositives, cmZeroAndOne,
    Fin.sum_univ_two]

theorem cmZeroAndOne_denom_one : iouDenominator cmZeroAndOne 1 = 1 := by
  simp [iouDenominator, sumOverRow, sumOverCol, truePositives, cmZeroAndOne,
    Fin.sum_univ_two]

theorem meanIoUInit_denom (n : Nat) (c : Fin n) :
    iouDenominator (meanIoUInit n) c = 0 := by
  simp [iouDenominator, sumOverRow, sumOverCol, truePositives, meanIoUInit]

/-- C3 counterexample: on the confusion matrix `[[0, 0], [0, 1]]` the
shipped test expects `result() = (0 + 1/(1+1-1)) / 1 = 1` (divisor: the
one valid class), while averaging over the configured `num_classes = 2`
would give `1/2`. -/
theorem meanIoU_divisor_counterexample :
    meanIoUResultClaimed cmZeroAndOne ≠ meanIoUResult cmZeroAndOne ∧
    meanIoUResult cmZeroAndOne = 1 ∧
    meanIoUResultClaimed cmZeroAndOne = 1 / 2 := by
  have hsum : (∑ c, perClassIoU cmZeroAndOne c) = 1 := by
    rw [Fin.sum_univ_two]
    simp [perClassIoU, divideNoNan, truePositives, iouDenominator,
      sumOverRow, sumOverCol, cmZeroAndOne, Fin.sum_univ_two]
  have hvalid : numValidEntries cmZeroAndOne = 1 := by
    have hfil : (Finset.univ.filter
        (fun c => iouDenominator cmZeroAndOne c ≠ 0)) = {1} := by
      ext c
      fin_cases c <;>
        simp [cmZeroAndOne_denom_zero, cmZeroAndOne_denom_one]
    rw [numValidEntries, hfil]
    simp
  refine ⟨?_, ?_, ?_⟩
  · rw [meanIoUResultClaimed, meanIoUResult, hsum, hvalid]
    norm_num [divideNoNan]
  · rw [meanIoUResult, hsum, hvalid]
    norm_num [divideNoNan]
  · rw [meanIoUResultClaimed, hsum]
    norm_num

/-- C3 (amended): `MeanIoU.result()` equals the sum across classes of the
zero-safe per-class IoU — classes with zero denominator contributing `0` —
divided by the number of classes with nonzero denominator, and it is `0`
when no class has a nonzero denominator. -/
theorem meanIoU_result_valid_average {n : Nat} (cm : ConfusionMatrix n) :
    (∀ c, iouDenominator cm c = 0 → perClassIoU cm c = 0) ∧
    ((∃ c, iouDenominator cm c ≠ 0) →
      numValidEntries cm ≠ 0 ∧
      meanIoUResult cm = (∑ c, perClassIoU cm c) / numValidEntries cm) ∧
    ((∀ c, iouDenominator cm c = 0) → meanIoUResult cm = 0) := by
  refine ⟨?_, ?_, ?_⟩
  · intro c hc
    simp [perClassIoU, hc, divideNoNan]
  · rintro ⟨c, hc⟩
    have hpos : 0 < (Finset.univ.filter
        (fun c => iouDenominator cm c ≠ 0)).card :=
      Finset.card_pos.mpr ⟨c, by simpa using hc⟩
    have hne : numValidEntries cm ≠ 0 := by
      rw [numValidEntries]
      exact_mod_cast Nat.pos_iff_ne_zero.mp hpos
    exact ⟨hne, by rw [meanIoUResult, divideNoNan, if_neg hne]⟩
  · intro hall
    have hzero : (Finset.univ.filter
        (fun c => iouDenominator cm c ≠ 0)).card = 0 := by
      rw [Finset.card_eq_zero, Finset.filter_eq_empty_iff]
      intro c _
      simpa using hall c
    rw [meanIoUResult, numValidEntries, hzero]
    simp [divideNoNan]

theorem meanIoU_result_valid_average_witness :
    iouDenominator cmZeroAndOne 1 ≠ 0 ∧
    numValidEntries cmZeroAndOne ≠ 0 ∧
    iouDenominator (meanIoUInit 2) 0 = 0 ∧
    perClassIoU (meanIoUInit 2) 0 = 0 :=
  ⟨by rw [cmZeroAndOne_denom_one]; norm_num,
    ((meanIoU_result_valid_average cmZeroAndOne).2.1
      ⟨1, by rw [cmZeroAndOne_denom_one]; norm_num⟩).1,
    meanIoUInit_denom 2 0,
    (meanIoU_result_valid_average (meanIoUInit 2)).1 0 (meanIoUInit_denom 2 0)⟩

/-- C4: a per-class zero denominator yields exactly `0` (never an
undefined value), and `MeanIoU(num_classes=2)` with no `update_state`
calls — the zero confusion matrix — returns `result() = 0`. -/
theorem meanIoU_zero_denominator {n : Nat} (cm : ConfusionMatrix n)
    (c : Fin n) (hc : iouDenominator cm c = 0) :
    perClassIoU cm c = 0 ∧ meanIoUResult (meanIoUInit 2) = 0 := by
  constructor
  · simp [perClassIoU, hc, divideNoNan]
  · exact (meanIoU_result_valid_average (meanIoUInit 2)).2.2
      (meanIoUInit_denom 2)

theorem meanIoU_zero_denominator_witness :
    iouDenominator (meanIoUInit 2) 0 = 0 ∧
    perClassIoU (meanIoUInit 2) 0 = 0 ∧
    meanIoUResult (meanIoUInit 2) = 0 := by
  refine ⟨meanIoUInit_denom 2 0, ?_, ?_⟩
  · exact (meanIoU_zero_denominator (meanIoUInit 2) 0 (meanIoUInit_denom 2 0)).1
  · exact (meanIoU_zero_denominator (meanIoUInit 2) 0 (meanIoUInit_denom 2 0)).2

/-! ## Metric.merge_state -/

/-- Modelled from the spec: the state of a metric instance, seen by
`merge_state` as its ordered list of weight counters (each a flat vector of
the floating dtype of the metric). -/
structure MetricState where
  counters : List (List ℚ)
deriving DecidableEq, Repr

/-- The configuration visible to `merge_state`: the number and shapes of
the weight counters. -/
def weightShapes (m : MetricState) : List Nat := m.counters.map List.length

/-- Elementwise summation of two counter lists. -/
def addCounters (a b : List (List ℚ)) : List (List ℚ) :=
  List.zipWith (List.zipWith (· + ·)) a b

/-- Modelled from the spec: `Metric.merge_state(metrics)` — each peer with
an incompatible configuration (different counter count/shapes) raises
`ValueError("Metric ... is not compatible with ...")`; otherwise every
counters of every peer are summed elementwise into the receiver. -/
def mergeState (receiver : MetricState) (peers : List MetricState) :
    Except PyError MetricState :=
  if peers.all (fun p => weightShapes p == weightShapes receiver) then
    .ok ⟨peers.foldl (fun acc p => addCounters acc p.counters)
      receiver.counters⟩
  else .error (.valueError "Metric <peer> is not compatible with <receiver>")

/-- Modelled from the spec: the state of an `Accuracy` metric — the
running weighted match total and the running sample count. -/
structure AccuracyState where
  total : ℚ
  count : ℚ
deriving DecidableEq, Repr

/-- The two weight counters (`total`, `count`) of an `Accuracy` metric. -/
def AccuracyState.toMetric (a : AccuracyState) : MetricState :=
  ⟨[[a.total], [a.count]]⟩

/-- The number of label/prediction pairs that match exactly. -/
def accuracyMatches (d : List (Int × Int)) : ℚ :=
  ((d.filter (fun p => p.1 == p.2)).length : ℚ)

/-- Modelled from the spec: one unweighted `Accuracy.update_state` call on
a batch of `(y_true, y_pred)` pairs — pure accumulation into the running
counters. -/
def accuracyUpdate (a : AccuracyState) (d : List (Int × Int)) :
    AccuracyState :=
  ⟨a.total + accuracyMatches d, a.count + (d.length : ℚ)⟩

/-- A fresh `Accuracy` metric updated once on dataset `d`. -/
def accuracyOn (d : List (Int × Int)) : AccuracyState :=
  accuracyUpdate ⟨0, 0⟩ d

/-- `Accuracy.result()`: zero-safe `total / count`. -/
def AccuracyState.result (a : AccuracyState) : ℚ :=
  divideNoNan a.total a.count

theorem accuracyMatches_append (d e : List (Int × Int)) :
    accuracyMatches (d ++ e) = accuracyMatches d + accuracyMatches e := by
  simp [accuracyMatches, List.filter_append]

/-- C7: merging `Accuracy` metrics independently updated on separate data
into a receiver sums the identical-shaped counters elementwise and yields
exactly the state (hence the result) of a single metric updated on the
concatenated data; merging metrics of differing configuration raises a
`ValueError` instead of succeeding. -/
theorem merge_state_additive_and_checked
    (d0 : List (Int × Int)) (ds : List (List (Int × Int)))
    (r p : MetricState) (hcfg : weightShapes p ≠ weightShapes r) :
    mergeState (accuracyOn d0).toMetric
        (ds.map (fun d => (accuracyOn d).toMetric))
      = .ok (accuracyOn (d0 ++ ds.flatten)).toMetric ∧
    (∃ msg, mergeState r [p] = .error (.valueError msg)) ∧
    ∀ s, mergeState r [p] ≠ .ok s := by
  refine ⟨?_, ?_, ?_⟩
  · have hcompat : (ds.map (fun d => (accuracyOn d).toMetric)).all
        (fun q => weightShapes q == weightShapes (accuracyOn d0).toMetric)
        = true := by
      rw [List.all_eq_true]
      rintro q hq
      obtain ⟨d, _, rfl⟩ := List.mem_map.mp hq
      rfl
    rw [mergeState, hcompat, if_pos rfl]
    have hfold : ∀ (ds : List (List (Int × Int))) (d0 : List (Int × Int)),
        (ds.map (fun d => (accuracyOn d).toMetric)).foldl
            (fun acc p => addCounters acc p.counters)
            (accuracyOn d0).toMetric.counters
          = (accuracyOn (d0 ++ ds.flatten)).toMetric.counters := by
      intro ds
      induction ds with
      | nil => intro d0; simp
      | cons d ds ih =>
          intro d0
          have hstep : addCounters (accuracyOn d0).toMetric.counters
              (accuracyOn d).toMetric.counters
              = (accuracyOn (d0 ++ d)).toMetric.counters := by
            simp [addCounters, AccuracyState.toMetric, accuracyOn,
              accuracyUpdate, accuracyMatches_append]
          calc ((d :: ds).map (fun d => (accuracyOn d).toMetric)).foldl
                (fun acc p => addCounters acc p.counters)
                (accuracyOn d0).toMetric.counters
              = (ds.map (fun d => (accuracyOn d).toMetric)).foldl
                (fun acc p => addCounters acc p.counters)
                (accuracyOn (d0 ++ d)).toMetric.counters := by
                  rw [List.map_cons, List.foldl_cons, hstep]
            _ = (accuracyOn ((d0 ++ d) ++ ds.flatten)).toMetric.counters :=
                  ih (d0 ++ d)
            _ = (accuracyOn (d0 ++ (d :: ds).flatten)).toMetric.counters := by
                  simp
    rw [hfold ds d0]
  · have hbad : ([p].all (fun q => weightShapes q == weightShapes r))
        = false := by
      simp [hcfg]
    rw [mergeState, hbad]
    exact ⟨_, rfl⟩
  · intro s hs
    have hbad : ([p].all (fun q => weightShapes q == weightShapes r))
        = false := by
      simp [hcfg]
    rw [mergeState, hbad] at hs
    simp at hs

theorem merge_state_additive_and_checked_witness :
    weightShapes ⟨[[0]]⟩ ≠ weightShapes (accuracyOn []).toMetric ∧
    mergeState (accuracyOn [((1 : Int), (0 : Int)), (2, 2)]).toMetric
        [(accuracyOn [((3 : Int), (3 : Int)), (4, 4)]).toMetric]
      = .ok (accuracyOn ([((1 : Int), (0 : Int)), (2, 2)] ++
          [[((3 : Int), (3 : Int)), (4, 4)]].flatten)).toMetric :=
  ⟨by simp [weightShapes, AccuracyState.toMetric],
    (merge_state_additive_and_checked [((1 : Int), (0 : Int)), (2, 2)]
      [[((3 : Int), (3 : Int)), (4, 4)]] ⟨[[0]]⟩ (accuracyOn []).toMetric
      (by simp [weightShapes, AccuracyState.toMetric])).1⟩

/-! ## Composite-tensor append helper (`_append_composite_tensor`) -/

/-- A sparse array value: explicit indices (each an index vector whose
first component is the row), the stored values, and the dense shape.
Indices and shapes are non-negative and modelled as naturals. -/
structure SparseVal where
  indices : List (List Nat)
  values : List Int
  dense_shape : List Nat
deriving DecidableEq, Repr

/-- A ragged array value in row-splits form: a flat values buffer plus
row-partition offsets into it. -/
structure RaggedVal where
  values : List Int
  row_splits : List Nat
deriving DecidableEq, Repr

/-- Offset the row (leading) component of one sparse index vector. -/
def offsetRowIndex (off : Nat) : List Nat → List Nat
  | r :: rest => (r + off) :: rest
  | [] => []

/-- Modelled from the spec: `_append_sparse_tensor_value` — offset the
row-index component of the second tensor by the row count of the first,
concatenate indices and values, and set the dense-shape row count of the
result to the sum of the row counts of both inputs (remaining dimensions are taken from
the first input). -/
def appendSparseVal (t a : SparseVal) : SparseVal :=
  { indices := t.indices ++ a.indices.map (offsetRowIndex (t.dense_shape.headD 0)),
    values := t.values ++ a.values,
    dense_shape := (t.dense_shape.headD 0 + a.dense_shape.headD 0)
      :: t.dense_shape.tail }

/-- Modelled from the spec: `_append_ragged_tensor_value` — concatenate the
flat values; offset the row-splits of the second tensor by the final
split value of the first tensor, drop the duplicate leading zero, and concatenate. -/
def appendRaggedVal (t a : RaggedVal) : RaggedVal :=
  { values := t.values ++ a.values,
    row_splits := t.row_splits ++
      a.row_splits.tail.map (fun x => x + t.row_splits.getLastD 0) }

/-- A composite tensor or its plain value representation: a live
`tf.SparseTensor` / `tf.RaggedTensor` or a `SparseTensorValue` /
`RaggedTensorValue` carrying the same data. -/
inductive CompositeValue where
  | sparseTensor (t : SparseVal)
  | sparseValue (t : SparseVal)
  | raggedTensor (t : RaggedVal)
  | raggedValue (t : RaggedVal)
deriving DecidableEq, Repr

/-- The sparse payload of a composite value, if it is sparse. -/
def CompositeValue.sparseData : CompositeValue → Option SparseVal
  | .sparseTensor t => some t
  | .sparseValue t => some t
  | _ => none

/-- The ragged payload of a composite value, if it is ragged. -/
def CompositeValue.raggedData : CompositeValue → Option RaggedVal
  | .raggedTensor t => some t
  | .raggedValue t => some t
  | _ => none

/-- Modelled from the spec: `_append_composite_tensor` — dispatch on the
(identical) type of the two arguments to the sparse or ragged binary
append, for live tensors and for plain values alike; mismatched argument
types raise (`none`). -/
def appendCompositeTensor : CompositeValue → CompositeValue →
    Option CompositeValue
  | .sparseTensor t, .sparseTensor a => some (.sparseTensor (appendSparseVal t a))
  | .sparseValue t, .sparseValue a => some (.sparseValue (appendSparseVal t a))
  | .raggedTensor t, .raggedTensor a => some (.raggedTensor (appendRaggedVal t a))
  | .raggedValue t, .raggedValue a => some (.raggedValue (appendRaggedVal t a))
  | _, _ => none

/-- Decode consecutive split pairs into rows of the values buffer. -/
def rowsFrom (values : List Int) : List Nat → List (List Int)
  | a :: b :: rest => ((values.drop a).take (b - a)) :: rowsFrom values (b :: rest)
  | _ => []

/-- The rows denoted by a ragged value. -/
def RaggedVal.rows (r : RaggedVal) : List (List Int) :=
  rowsFrom r.values r.row_splits

theorem rowsFrom_shift (v1 v2 : List Int) (s : List Nat) :
    rowsFrom (v1 ++ v2) (s.map (fun x => x + v1.length)) = rowsFrom v2 s := by
  induction s with
  | nil => rfl
  | cons a s ih =>
      cases s with
      | nil => rfl
      | cons b rest =>
          show (((v1 ++ v2).drop (a + v1.length)).take
              (b + v1.length - (a + v1.length))) ::
              rowsFrom (v1 ++ v2) ((b :: rest).map (fun x => x + v1.length))
            = ((v2.drop a).take (b - a)) :: rowsFrom v2 (b :: rest)
          rw [ih]
          congr 1
          rw [Nat.add_sub_add_right, Nat.add_comm a v1.length,
            List.drop_append]

theorem rowsFrom_append (v1 v2 : List Int) (s1 t2 : List Nat)
    (hbound : ∀ x ∈ s1, x ≤ v1.length)
    (hlast : s1.getLast? = some v1.length) :
    rowsFrom (v1 ++ v2) (s1 ++ t2.map (fun x => x + v1.length))
      = rowsFrom v1 s1 ++ rowsFrom v2 (0 :: t2) := by
  induction s1 with
  | nil => exact absurd hlast (by simp)
  | cons a s1 ih =>
      cases s1 with
      | nil =>
          have ha : a = v1.length := by simpa using hlast
          show rowsFrom (v1 ++ v2) (a :: t2.map (fun x => x + v1.length))
            = rowsFrom v1 [a] ++ rowsFrom v2 (0 :: t2)
          have hmap : a :: t2.map (fun x => x + v1.length)
              = (0 :: t2).map (fun x => x + v1.length) := by
            simp [ha]
          rw [hmap, rowsFrom_shift]
          rfl
      | cons b rest =>
          have hb : b ≤ v1.length := hbound b (by simp)
          have ha : a ≤ v1.length := hbound a (by simp)
          have hseg : ((v1 ++ v2).drop a).take (b - a)
              = (v1.drop a).take (b - a) := by
            rw [List.drop_append_of_le_length ha,
              List.take_append_of_le_length]
            rw [List.length_drop]
            exact Nat.sub_le_sub_right hb a
          have hbound' : ∀ x ∈ b :: rest, x ≤ v1.length :=
            fun x hx => hbound x (List.mem_cons_of_mem a hx)
          have hlast' : (b :: rest).getLast? = some v1.length := by
            rw [List.getLast?_cons_cons] at hlast
            exact hlast
          show (((v1 ++ v2).drop a).take (b - a)) ::
              rowsFrom (v1 ++ v2) ((b :: rest) ++ t2.map (fun x => x + v1.length))
            = (((v1.drop a).take (b - a)) :: rowsFrom v1 (b :: rest))
              ++ rowsFrom v2 (0 :: t2)
          rw [hseg, ih hbound' hlast']
          rfl

/-- C8: `_append_composite_tensor` produces the row-wise concatenation of
its two same-structure inputs.  Ragged (row-splits form): the flat values
concatenate and the decoded rows of the result are the rows of the first
input followed by the rows of the second.  Sparse: values concatenate, the
row-index components of the second input are offset by the row count of
the first, and the dense-shape row count of the result is the sum of the two row
counts with the remaining dimensions preserved.  Live composite tensors
and plain value representations produce the same payload. -/
theorem append_composite_tensor_rowwise (t a : RaggedVal) (ts as : SparseVal)
    (hbound : ∀ x ∈ t.row_splits, x ≤ t.values.length)
    (hlast : t.row_splits.getLast? = some t.values.length)
    (hhead : a.row_splits.head? = some 0) :
    (appendRaggedVal t a).rows = t.rows ++ a.rows ∧
    (appendRaggedVal t a).values = t.values ++ a.values ∧
    (appendSparseVal ts as).values = ts.values ++ as.values ∧
    (appendSparseVal ts as).dense_shape
      = (ts.dense_shape.headD 0 + as.dense_shape.headD 0)
          :: ts.dense_shape.tail ∧
    (appendSparseVal ts as).indices
      = ts.indices ++ as.indices.map (offsetRowIndex (ts.dense_shape.headD 0)) ∧
    (appendCompositeTensor (.sparseTensor ts) (.sparseTensor as)).bind
        CompositeValue.sparseData
      = (appendCompositeTensor (.sparseValue ts) (.sparseValue as)).bind
        CompositeValue.sparseData ∧
    (appendCompositeTensor (.raggedTensor t) (.raggedTensor a)).bind
        CompositeValue.raggedData
      = (appendCompositeTensor (.raggedValue t) (.raggedValue a)).bind
        CompositeValue.raggedData := by
  refine ⟨?_, rfl, rfl, rfl, rfl, rfl, rfl⟩
  obtain ⟨t2, ht2⟩ : ∃ t2, a.row_splits = 0 :: t2 := by
    cases hsp : a.row_splits with
    | nil => rw [hsp] at hhead; exact absurd hhead (by simp)
    | cons x xs =>
        rw [hsp] at hhead
        simp only [List.head?_cons, Option.some.injEq] at hhead
        exact ⟨xs, by rw [hhead]⟩
  have hlastD : t.row_splits.getLastD 0 = t.values.length := by
    rw [List.getLastD_eq_getLast?, hlast]
    rfl
  show rowsFrom (t.values ++ a.values)
      (t.row_splits ++ a.row_splits.tail.map
        (fun x => x + t.row_splits.getLastD 0))
    = t.rows ++ a.rows
  rw [hlastD, ht2]
  show rowsFrom (t.values ++ a.values)
      (t.row_splits ++ t2.map (fun x => x + t.values.length))
    = t.rows ++ a.rows
  rw [rowsFrom_append t.values a.values t.row_splits t2 hbound hlast]
  rw [RaggedVal.rows, RaggedVal.rows, ht2]

theorem append_composite_tensor_rowwise_witness :
    (∀ x ∈ ([0, 1, 3] : List Nat), x ≤ ([(0 : Int), 1, 2] : List Int).length) ∧
    (appendRaggedVal ⟨[0, 1, 2], [0, 1, 3]⟩ ⟨[3, 4, 5], [0, 2, 3]⟩).rows
      = RaggedVal.rows ⟨[0, 1, 2], [0, 1, 3]⟩
        ++ RaggedVal.rows ⟨[3, 4, 5], [0, 2, 3]⟩ ∧
    appendRaggedVal ⟨[0, 1, 2], [0, 1, 3]⟩ ⟨[3, 4, 5], [0, 2, 3]⟩
      = ⟨[0, 1, 2, 3, 4, 5], [0, 1, 3, 5, 6]⟩ ∧
    appendSparseVal ⟨[[0, 0]], [1], [1, 1]⟩ ⟨[[0, 0]], [2], [1, 1]⟩
      = ⟨[[0, 0], [1, 0]], [1, 2], [2, 1]⟩ :=
  ⟨by decide,
    (append_composite_tensor_rowwise ⟨[0, 1, 2], [0, 1, 3]⟩
      ⟨[3, 4, 5], [0, 2, 3]⟩ ⟨[[0, 0]], [1], [1, 1]⟩ ⟨[[0, 0]], [2], [1, 1]⟩
      (by decide) (by decide) (by decide)).1,
    by decide, by decide⟩

end KerasSpec
